import Mathlib

/-!
Verification of the OpenMP shared-variable accumulation experiment
(src/exp02-openmp-src/sharedVars_main.cpp).

The program is a single generic routine
  template <typename T, ExecutionPolicy policy> T accumulate(const T& start, const T& end)
invoked by a timing harness under five execution policies.  We embed the
routine over mathematical integers (the generic instantiation) and, for the
concrete instantiation at type int used in main, over 32-bit wraparound
integers.  The parallel policies are embedded by making their scheduling
nondeterminism explicit: atomic and critical executions are folds over an
arbitrary permutation of the iteration range, the reduction execution is a
fold over an arbitrary chunking of the range into per-thread pieces, and the
unsynchronized policy is a small-step interleaving semantics of read and
write events on the shared accumulator.
-/

/-- The ExecutionPolicy enum (sharedVars_main.cpp lines 13-20). -/
inductive ExecutionPolicy
  | seq
  | par
  | atomic
  | critical
  | par_reduce
deriving DecidableEq

/-- The loop of accumulate: starting from counter value i, run the given
number of remaining iterations of the body { sum += i; ++i; }. -/
def accLoop : Int → Nat → Int → Int
  | _, 0, sum => sum
  | i, Nat.succ f, sum => accLoop (i + 1) f (sum + i)

/-- accumulate with ExecutionPolicy.seq (lines 26-30): sum = 0, then the
loop for (i = start; i < stop; ++i) sum += i.  The number of iterations of
that loop is (stop - start).toNat. -/
def accumulate_seq (start stop : Int) : Int :=
  accLoop start (stop - start).toNat 0

/-- The iteration range [start, stop) of the loop, as the list of values the
loop counter takes. -/
def rangeList (start stop : Int) : List Int :=
  (List.range (stop - start).toNat).map (fun k : Nat => start + (k : Int))

/-- accumulate with ExecutionPolicy.atomic (lines 36-41): every sum += i is a
single indivisible read-modify-write on the shared sum, so an execution is
determined by the order in which the iterations commit their updates; the
final sum folds + over that order starting from sum = 0.  Executions are
those orders that are permutations of the iteration range. -/
def accumulate_atomic (order : List Int) : Int :=
  order.foldl (· + ·) 0

/-- accumulate with ExecutionPolicy.critical (lines 42-49): the critical
section makes each sum += i mutually exclusive, so exactly as in the atomic
policy an execution is a fold of + over the commit order of the iterations,
starting from sum = 0. -/
def accumulate_critical (order : List Int) : Int :=
  order.foldl (· + ·) 0

/-- accumulate with ExecutionPolicy.par_reduce (lines 50-55): each thread
owns a private copy of sum initialized to 0, accumulates its assigned chunk
of iterations, and the private sums are combined with + at the end together
with the original value 0 of sum.  Executions are those chunk lists whose
concatenation is (a permutation of) the iteration range. -/
def accumulate_par_reduce (chunks : List (List Int)) : Int :=
  (chunks.map (fun c => c.foldl (· + ·) 0)).foldl (· + ·) 0

-- ### Basic lemmas about the sequential loop

theorem accLoop_succ (f : Nat) : ∀ (i s : Int),
    accLoop i (f + 1) s = accLoop i f s + (i + (f : Int)) := by
  induction f with
  | zero => intro i s; simp [accLoop]
  | succ f ih =>
      intro i s
      show accLoop (i + 1) (f + 1) (s + i) = accLoop (i + 1) f (s + i) + _
      rw [ih (i + 1) (s + i)]
      push_cast
      ring

theorem foldl_add_eq (l : List Int) : ∀ a : Int, l.foldl (· + ·) a = a + l.sum := by
  induction l with
  | nil => intro a; simp
  | cons x xs ih => intro a; simp [List.foldl_cons, ih (a + x)]; ring

theorem rangeList_sum_aux (f : Nat) : ∀ s : Int,
    ((List.range f).map (fun k : Nat => s + (k : Int))).sum = accLoop s f 0 := by
  induction f with
  | zero => intro s; simp [accLoop]
  | succ f ih =>
      intro s
      rw [List.range_succ, List.map_append, List.sum_append, ih s, accLoop_succ]
      simp

theorem rangeList_sum (s e : Int) : (rangeList s e).sum = accumulate_seq s e := by
  unfold rangeList accumulate_seq
  exact rangeList_sum_aux (e - s).toNat s

theorem two_mul_accLoop_zero (f : Nat) :
    2 * accLoop 0 f 0 = (f : Int) * ((f : Int) - 1) := by
  induction f with
  | zero => simp [accLoop]
  | succ f ih =>
      rw [accLoop_succ, mul_add, ih]
      push_cast
      ring

/-- Closed form of the sequential accumulation over [0, n). -/
theorem seq_closed_form (n : Int) (hn : 0 ≤ n) :
    accumulate_seq 0 n = n * (n - 1) / 2 := by
  have h0 : ((n - 0).toNat : Int) = n := by omega
  have h2 : 2 * accumulate_seq 0 n = n * (n - 1) := by
    unfold accumulate_seq
    rw [two_mul_accLoop_zero, h0]
  obtain ⟨m, hm⟩ : ∃ m : Int, m = n * (n - 1) := ⟨n * (n - 1), rfl⟩
  rw [← hm] at h2 ⊢
  omega

/-- Any commit order that is a permutation of the iteration range gives the
atomic policy the sequential result. -/
theorem atomic_eq_seq (s e : Int) (o : List Int) (h : o.Perm (rangeList s e)) :
    accumulate_atomic o = accumulate_seq s e := by
  unfold accumulate_atomic
  rw [foldl_add_eq, zero_add, h.sum_eq, rangeList_sum]

theorem critical_eq_seq (s e : Int) (o : List Int) (h : o.Perm (rangeList s e)) :
    accumulate_critical o = accumulate_seq s e := by
  unfold accumulate_critical
  rw [foldl_add_eq, zero_add, h.sum_eq, rangeList_sum]

/-- Any chunking whose concatenation is a permutation of the iteration range
gives the reduction policy the sequential result. -/
theorem reduce_eq_seq (s e : Int) (c : List (List Int))
    (h : c.flatten.Perm (rangeList s e)) :
    accumulate_par_reduce c = accumulate_seq s e := by
  unfold accumulate_par_reduce
  rw [foldl_add_eq, zero_add]
  have hmap : c.map (fun l => l.foldl (· + ·) 0) = c.map List.sum := by
    apply List.map_congr_left
    intro l _
    rw [foldl_add_eq, zero_add]
  rw [hmap, ← List.sum_flatten, h.sum_eq, rangeList_sum]

-- ### The unsynchronized parallel policy (ExecutionPolicy.par, lines 31-35)

/-- One access of the non-atomic update sum += i performed by the iteration
with counter value i: the read of the shared sum into a register, or the
write of register + i back to the shared sum. -/
inductive RaceEv
  | read (i : Int)
  | write (i : Int)
deriving DecidableEq

/-- State of an unsynchronized parallel execution: the shared sum, the
iterations that have read the shared sum but not yet written it back
(paired with the value they read), the iterations that have not started,
and the iterations whose write has committed. -/
structure RaceState where
  mem : Int
  pending : List (Int × Int)
  toDo : List Int
  done : List Int
deriving DecidableEq

/-- Remove the pending entry of iteration i, returning its read value and
the remaining pending list. -/
def takePending : Int → List (Int × Int) → Option (Int × List (Int × Int))
  | _, [] => none
  | i, (j, r) :: rest =>
      if i = j then some (r, rest)
      else
        match takePending i rest with
        | none => none
        | some (r2, rest2) => some (r2, (j, r) :: rest2)

/-- Small-step semantics of the data race: a read moves an unstarted
iteration to pending, recording the current shared sum; a write commits
read value + i to the shared sum (a lost update overwrites any writes that
happened in between). -/
def raceStep : RaceEv → RaceState → Option RaceState
  | RaceEv.read i, s =>
      if i ∈ s.toDo then
        some { s with toDo := s.toDo.erase i, pending := (i, s.mem) :: s.pending }
      else none
  | RaceEv.write i, s =>
      match takePending i s.pending with
      | none => none
      | some (r, rest) =>
          some { s with pending := rest, mem := r + i, done := i :: s.done }

def raceRun : List RaceEv → RaceState → Option RaceState
  | [], s => some s
  | e :: es, s =>
      match raceStep e s with
      | none => none
      | some s2 => raceRun es s2

/-- Initial state: sum = 0, no iteration started. -/
def raceInit (start stop : Int) : RaceState :=
  { mem := 0, pending := [], toDo := rangeList start stop, done := [] }

/-- The final value of the shared sum after a complete unsynchronized
parallel execution of accumulate over [start, stop): every iteration must
have read and written exactly once. -/
def raceResult (start stop : Int) (evs : List RaceEv) : Option Int :=
  (raceRun evs (raceInit start stop)).bind fun s =>
    if s.toDo = [] ∧ s.pending = [] then some s.mem else none

/-- Invariant of the race semantics when every iteration value is
nonnegative: the shared sum and every pending read value are bounded by the
sum of the committed iterations, and the iterations are conserved. -/
def raceInv (t : Int) (s : RaceState) : Prop :=
  s.mem ≤ s.done.sum ∧
  (∀ p ∈ s.pending, p.2 ≤ s.done.sum) ∧
  (∀ p ∈ s.pending, 0 ≤ p.1) ∧
  (∀ x ∈ s.toDo, 0 ≤ x) ∧
  s.done.sum + (s.pending.map Prod.fst).sum + s.toDo.sum = t

theorem takePending_perm (i : Int) : ∀ (p : List (Int × Int)) (r : Int)
    (rest : List (Int × Int)), takePending i p = some (r, rest) →
    p.Perm ((i, r) :: rest) := by
  intro p
  induction p with
  | nil => intro r rest h; simp [takePending] at h
  | cons q p ih =>
      obtain ⟨j, v⟩ := q
      intro r rest h
      by_cases hij : i = j
      · subst hij
        simp [takePending] at h
        obtain ⟨hr, hrest⟩ := h
        subst hr; subst hrest
        exact List.Perm.refl _
      · simp [takePending, hij] at h
        cases htp : takePending i p with
        | none => rw [htp] at h; simp at h
        | some pr =>
            obtain ⟨r2, rest2⟩ := pr
            rw [htp] at h
            simp at h
            obtain ⟨hr, hrest⟩ := h
            subst hr; subst hrest
            exact (List.Perm.cons (j, v) (ih r2 rest2 htp)).trans
              (List.Perm.swap (i, r2) (j, v) rest2)

theorem takePending_mem (i : Int) (p : List (Int × Int)) (r : Int)
    (rest : List (Int × Int)) (h : takePending i p = some (r, rest)) :
    (i, r) ∈ p :=
  (takePending_perm i p r rest h).mem_iff.mpr (List.mem_cons_self _ _)

theorem takePending_sub (i : Int) (p : List (Int × Int)) (r : Int)
    (rest : List (Int × Int)) (h : takePending i p = some (r, rest)) :
    ∀ q ∈ rest, q ∈ p := by
  intro q hq
  exact (takePending_perm i p r rest h).mem_iff.mpr (List.mem_cons_of_mem _ hq)

theorem takePending_fst_sum (i : Int) (p : List (Int × Int)) (r : Int)
    (rest : List (Int × Int)) (h : takePending i p = some (r, rest)) :
    (p.map Prod.fst).sum = i + (rest.map Prod.fst).sum := by
  have hp := ((takePending_perm i p r rest h).map Prod.fst).sum_eq
  simpa using hp

theorem raceStep_inv (t : Int) (e : RaceEv) (s s2 : RaceState)
    (hstep : raceStep e s = some s2) (hinv : raceInv t s) : raceInv t s2 := by
  obtain ⟨hmem, hpend, hpend0, htodo0, hcons⟩ := hinv
  cases e with
  | read i =>
      simp only [raceStep] at hstep
      by_cases hi : i ∈ s.toDo
      · rw [if_pos hi] at hstep
        have hs2 := Option.some.inj hstep
        subst hs2
        have hsum : s.toDo.sum = i + (s.toDo.erase i).sum := by
          simpa using (List.perm_cons_erase hi).sum_eq
        refine ⟨hmem, ?_, ?_, ?_, ?_⟩
        · intro p hp
          rcases List.mem_cons.mp hp with hp1 | hp2
          · rw [hp1]; exact hmem
          · exact hpend p hp2
        · intro p hp
          rcases List.mem_cons.mp hp with hp1 | hp2
          · rw [hp1]; exact htodo0 i hi
          · exact hpend0 p hp2
        · intro x hx
          exact htodo0 x (List.mem_of_mem_erase hx)
        · simp only [List.map_cons, List.sum_cons]
          omega
      · rw [if_neg hi] at hstep
        exact absurd hstep (by simp)
  | write i =>
      simp only [raceStep] at hstep
      cases htp : takePending i s.pending with
      | none => rw [htp] at hstep; exact absurd hstep (by simp)
      | some pr =>
          obtain ⟨r, rest⟩ := pr
          rw [htp] at hstep
          have hs2 := Option.some.inj hstep
          subst hs2
          have hri : (i, r) ∈ s.pending := takePending_mem i s.pending r rest htp
          have hi0 : 0 ≤ i := hpend0 (i, r) hri
          have hrle : r ≤ s.done.sum := hpend (i, r) hri
          have hsub := takePending_sub i s.pending r rest htp
          have hfst := takePending_fst_sum i s.pending r rest htp
          refine ⟨?_, ?_, ?_, htodo0, ?_⟩
          · simp only [List.sum_cons]; omega
          · intro p hp
            have := hpend p (hsub p hp)
            simp only [List.sum_cons]; omega
          · intro p hp
            exact hpend0 p (hsub p hp)
          · simp only [List.sum_cons]; omega

theorem raceRun_inv (t : Int) : ∀ (evs : List RaceEv) (s s2 : RaceState),
    raceRun evs s = some s2 → raceInv t s → raceInv t s2 := by
  intro evs
  induction evs with
  | nil =>
      intro s s2 h hinv
      simp only [raceRun, Option.some_inj] at h
      rwa [← h]
  | cons e es ih =>
      intro s s2 h hinv
      simp only [raceRun] at h
      cases hstep : raceStep e s with
      | none => rw [hstep] at h; exact absurd h (by simp)
      | some s1 =>
          rw [hstep] at h
          exact ih s1 s2 h (raceStep_inv t e s s1 hstep hinv)

theorem raceInit_inv (n : Int) :
    raceInv ((rangeList 0 n).sum) (raceInit 0 n) := by
  refine ⟨le_refl 0, ?_, ?_, ?_, ?_⟩
  · intro p hp; simp [raceInit] at hp
  · intro p hp; simp [raceInit] at hp
  · intro x hx
    simp only [raceInit, rangeList, List.mem_map, List.mem_range] at hx
    obtain ⟨k, _, hk⟩ := hx
    omega
  · simp [raceInit]

/-- Any complete unsynchronized execution over [0, n) yields at most the
sequential sum. -/
theorem raceResult_le (n : Int) (evs : List RaceEv) (r : Int)
    (h : raceResult 0 n evs = some r) : r ≤ n * (n - 1) / 2 := by
  unfold raceResult at h
  cases hrun : raceRun evs (raceInit 0 n) with
  | none => rw [hrun, Option.none_bind] at h; exact absurd h (by simp)
  | some s =>
      rw [hrun, Option.some_bind] at h
      by_cases hc : s.toDo = [] ∧ s.pending = []
      · rw [if_pos hc] at h
        have hr : r = s.mem := by
          simpa using h.symm
        have hinv := raceRun_inv ((rangeList 0 n).sum) evs _ s hrun (raceInit_inv n)
        obtain ⟨hmem, _, _, _, hcons⟩ := hinv
        rw [hc.1, hc.2] at hcons
        simp only [List.map_nil, List.sum_nil, add_zero] at hcons
        by_cases hn : 0 ≤ n
        · have := seq_closed_form n hn
          rw [← rangeList_sum] at this
          omega
        · have hnil : rangeList 0 n = [] := by
            unfold rangeList
            have : (n - 0).toNat = 0 := by omega
            rw [this]
            simp
          have hdiv : 0 ≤ n * (n - 1) / 2 := by
            apply Int.ediv_nonneg
            · apply mul_nonneg_of_nonpos_of_nonpos <;> omega
            · norm_num
          rw [hnil] at hcons
          simp at hcons
          omega
      · rw [if_neg hc] at h
        exact absurd h (by simp)

/-- From an initial state with nothing to do, only the empty event list
completes: the racy accumulate over an empty range always returns 0. -/
theorem raceRun_stuck : ∀ (evs : List RaceEv) (s0 s : RaceState),
    s0.toDo = [] → s0.pending = [] → raceRun evs s0 = some s → s = s0 := by
  intro evs
  cases evs with
  | nil =>
      intro s0 s _ _ h
      simp only [raceRun, Option.some_inj] at h
      rw [h]
  | cons e es =>
      intro s0 s ht hp h
      simp only [raceRun] at h
      cases e with
      | read i => rw [raceStep, ht] at h; simp at h
      | write i => rw [raceStep, hp] at h; simp [takePending] at h

-- ### The instantiation at type int used by main (32-bit wraparound)

/-- Reduction of an integer to the 32-bit two-complement representative in
[-2^31, 2^31): the value an int holds after overflow under wraparound
semantics. -/
def wrap32 (x : Int) : Int := (x + 2147483648) % 4294967296 - 2147483648

/-- One int addition under wraparound semantics. -/
def wadd (a b : Int) : Int := wrap32 (a + b)

/-- The loop of accumulate instantiated at T = int: both the accumulator
update sum += i and the counter update ++i are int operations. -/
def accLoop32 : Int → Nat → Int → Int
  | _, 0, sum => sum
  | i, Nat.succ f, sum => accLoop32 (wrap32 (i + 1)) f (wadd sum i)

/-- accumulate with ExecutionPolicy.seq at T = int. -/
def accumulate_seq_int32 (start stop : Int) : Int :=
  accLoop32 start (stop - start).toNat 0

/-- accumulate with ExecutionPolicy.atomic at T = int: int additions folded
over the commit order of the iterations. -/
def accumulate_atomic_int32 (order : List Int) : Int :=
  order.foldl wadd 0

/-- accumulate with ExecutionPolicy.critical at T = int. -/
def accumulate_critical_int32 (order : List Int) : Int :=
  order.foldl wadd 0

/-- accumulate with ExecutionPolicy.par_reduce at T = int: private int sums
per chunk, combined with int addition. -/
def accumulate_par_reduce_int32 (chunks : List (List Int)) : Int :=
  (chunks.map (fun c => c.foldl wadd 0)).foldl wadd 0

theorem wrap32_eq_self (x : Int) (h1 : -2147483648 ≤ x) (h2 : x < 2147483648) :
    wrap32 x = x := by
  unfold wrap32
  omega

theorem wrap32_add_left (a b : Int) : wrap32 (wrap32 a + b) = wrap32 (a + b) := by
  unfold wrap32
  omega

theorem wrap32_add_right (a b : Int) : wrap32 (a + wrap32 b) = wrap32 (a + b) := by
  unfold wrap32
  omega

theorem wrap32_zero : wrap32 0 = 0 := by unfold wrap32; omega

/-- The int loop agrees with the wrap of the exact loop as long as the
counter itself stays in int range. -/
theorem accLoop32_wrap (f : Nat) : ∀ (i s : Int), 0 ≤ i →
    i + (f : Int) ≤ 2147483647 →
    accLoop32 i f (wrap32 s) = wrap32 (accLoop i f s) := by
  induction f with
  | zero => intro i s _ _; rfl
  | succ f ih =>
      intro i s hi hf
      show accLoop32 (wrap32 (i + 1)) f (wadd (wrap32 s) i) = _
      have hi1 : wrap32 (i + 1) = i + 1 := by
        apply wrap32_eq_self <;> push_cast at hf ⊢ <;> omega
      have hs : wadd (wrap32 s) i = wrap32 (s + i) := by
        unfold wadd
        rw [wrap32_add_left]
      rw [hi1, hs, ih (i + 1) (s + i) (by omega) (by push_cast at hf ⊢; omega)]
      rfl

theorem foldl_wadd (l : List Int) : ∀ a : Int,
    l.foldl wadd (wrap32 a) = wrap32 (a + l.sum) := by
  induction l with
  | nil => intro a; simp
  | cons x xs ih =>
      intro a
      show List.foldl wadd (wadd (wrap32 a) x) xs = _
      have h1 : wadd (wrap32 a) x = wrap32 (a + x) := by
        unfold wadd; rw [wrap32_add_left]
      rw [h1, ih (a + x)]
      simp only [List.sum_cons]
      ring_nf

theorem sum_map_wrap32 (l : List Int) :
    wrap32 ((l.map wrap32).sum) = wrap32 l.sum := by
  induction l with
  | nil => simp
  | cons x xs ih =>
      simp only [List.map_cons, List.sum_cons]
      rw [wrap32_add_left, ← wrap32_add_right x ((xs.map wrap32).sum), ih,
        wrap32_add_right]

/-- The int atomic execution over any commit order that permutes the range
computes the wrap of the exact sequential sum. -/
theorem atomic_int32_eq (s e : Int) (o : List Int) (h : o.Perm (rangeList s e)) :
    accumulate_atomic_int32 o = wrap32 (accumulate_seq s e) := by
  unfold accumulate_atomic_int32
  rw [← wrap32_zero, foldl_wadd, zero_add, h.sum_eq, rangeList_sum]

theorem critical_int32_eq (s e : Int) (o : List Int) (h : o.Perm (rangeList s e)) :
    accumulate_critical_int32 o = wrap32 (accumulate_seq s e) := by
  unfold accumulate_critical_int32
  rw [← wrap32_zero, foldl_wadd, zero_add, h.sum_eq, rangeList_sum]

/-- The int reduction execution over any chunking of the range computes the
wrap of the exact sequential sum. -/
theorem reduce_int32_eq (s e : Int) (c : List (List Int))
    (h : c.flatten.Perm (rangeList s e)) :
    accumulate_par_reduce_int32 c = wrap32 (accumulate_seq s e) := by
  unfold accumulate_par_reduce_int32
  have hmap : c.map (fun l => l.foldl wadd 0) = c.map (fun l => wrap32 l.sum) := by
    apply List.map_congr_left
    intro l _
    rw [← wrap32_zero, foldl_wadd, zero_add]
  rw [hmap, ← wrap32_zero, foldl_wadd, zero_add]
  have : c.map (fun l => wrap32 l.sum) = (c.map List.sum).map wrap32 := by
    rw [List.map_map]
    rfl
  rw [this, sum_map_wrap32, ← List.sum_flatten, h.sum_eq, rangeList_sum]

/-- The int sequential execution computes the wrap of the exact sequential
sum when the bounds are in int range. -/
theorem seq_int32_eq (s e : Int) (hs : 0 ≤ s) (hs2 : s ≤ 2147483647)
    (he : e ≤ 2147483647) :
    accumulate_seq_int32 s e = wrap32 (accumulate_seq s e) := by
  unfold accumulate_seq_int32 accumulate_seq
  rw [← wrap32_zero]
  apply accLoop32_wrap <;> omega

-- ### The timing harness main (lines 59-113)

/-- The five strategy runs of main, in source order. -/
inductive Strategy
  | serial
  | openmp
  | openmpAtomic
  | openmpCritical
  | openmpReduce
deriving DecidableEq

/-- Value of an IEEE 754 double as printed by the speedup line: either a
finite rational, positive infinity, or NaN. -/
inductive DoubleVal
  | finite (q : Rat)
  | posInf
  | nan
deriving DecidableEq

def DoubleVal.isFinite : DoubleVal → Bool
  | DoubleVal.finite _ => true
  | _ => false

/-- The accRatio lambda (lines 64-66): static_cast<double>(originTime) /
targetTime, with IEEE 754 semantics when the divisor is zero (x / 0 is +inf
for x > 0 and NaN for x = 0); elapsed times are nonnegative millisecond
counts.  Modelled from the spec: the stopwatch utility (TimeCounter.hpp is
not part of the sources) exposes an elapsed-milliseconds query, so times
are taken as natural numbers of milliseconds. -/
def accRatio (originTime targetTime : Nat) : DoubleVal :=
  if targetTime = 0 then
    if originTime = 0 then DoubleVal.nan else DoubleVal.posInf
  else DoubleVal.finite ((originTime : Rat) / (targetTime : Rat))

/-- n = std::numeric_limits<int>::max() >> 3 (line 62). -/
def mainN : Int := ((2147483647 : Nat) >>> 3 : Nat)

/-- One block of console output of main: the strategy, its elapsed
milliseconds, the printed sum, and (absent for the serial run) the printed
speedup ratio. -/
structure StrategyReport where
  strategy : Strategy
  elapsedMs : Nat
  sum : Int
  speedup : Option DoubleVal
deriving DecidableEq

/-- What a run of main produces: the reports in print order and the exit
code. -/
structure MainResult where
  reports : List StrategyReport
  exitCode : Int
deriving DecidableEq

/-- main (lines 59-113): runs the five strategies in source order over
[0, mainN) at type int, printing elapsed time and sum for each and a
speedup ratio accRatio(serialTime, targetTime) for each of the four OpenMP
strategies, and returns 0.  The elapsed times are measured wall-clock
values and the scheduling of the parallel runs is chosen by the OpenMP
runtime, so both enter as parameters: parResult is the value produced by
the racy ExecutionPolicy.par run, atomicOrder and criticalOrder the commit
orders of the atomic and critical runs, and reduceChunks the per-thread
chunking of the reduction run. -/
def mainRun (tSerial tPar tAtomic tCritical tReduce : Nat) (parResult : Int)
    (atomicOrder criticalOrder : List Int) (reduceChunks : List (List Int)) :
    MainResult :=
  { reports := [
      { strategy := Strategy.serial, elapsedMs := tSerial,
        sum := accumulate_seq_int32 0 mainN, speedup := none },
      { strategy := Strategy.openmp, elapsedMs := tPar,
        sum := parResult, speedup := some (accRatio tSerial tPar) },
      { strategy := Strategy.openmpAtomic, elapsedMs := tAtomic,
        sum := accumulate_atomic_int32 atomicOrder,
        speedup := some (accRatio tSerial tAtomic) },
      { strategy := Strategy.openmpCritical, elapsedMs := tCritical,
        sum := accumulate_critical_int32 criticalOrder,
        speedup := some (accRatio tSerial tCritical) },
      { strategy := Strategy.openmpReduce, elapsedMs := tReduce,
        sum := accumulate_par_reduce_int32 reduceChunks,
        speedup := some (accRatio tSerial tReduce) } ],
    exitCode := 0 }

-- ### Claims

/-- C1: For every n ≥ 1, the accumulate routine invoked over the range
[0, n) under the sequential, atomic, critical, and reduction policies
returns exactly n(n-1)/2, the closed-form sum of 0..n-1. -/
theorem claim_C1_correct_policies_closed_form (n : Int) (hn : 1 ≤ n) :
    accumulate_seq 0 n = n * (n - 1) / 2 ∧
    (∀ o : List Int, o.Perm (rangeList 0 n) →
      accumulate_atomic o = n * (n - 1) / 2) ∧
    (∀ o : List Int, o.Perm (rangeList 0 n) →
      accumulate_critical o = n * (n - 1) / 2) ∧
    (∀ c : List (List Int), c.flatten.Perm (rangeList 0 n) →
      accumulate_par_reduce c = n * (n - 1) / 2) := by
  have hseq := seq_closed_form n (by omega)
  refine ⟨hseq, ?_, ?_, ?_⟩
  · intro o ho; rw [atomic_eq_seq 0 n o ho, hseq]
  · intro o ho; rw [critical_eq_seq 0 n o ho, hseq]
  · intro c hc; rw [reduce_eq_seq 0 n c hc, hseq]

theorem claim_C1_witness :
    accumulate_seq 0 3 = 3 * (3 - 1) / 2 ∧
    accumulate_atomic [2, 0, 1] = 3 * (3 - 1) / 2 ∧
    accumulate_critical [1, 2, 0] = 3 * (3 - 1) / 2 ∧
    accumulate_par_reduce [[0, 1], [2]] = 3 * (3 - 1) / 2 := by
  have h := claim_C1_correct_policies_closed_form 3 (by norm_num)
  exact ⟨h.1, h.2.1 [2, 0, 1] (by decide), h.2.2.1 [1, 2, 0] (by decide),
    h.2.2.2 [[0, 1], [2]] (by decide)⟩

/-- The sum of all integers i with start ≤ i < stop, written directly from
the words of the spec (exclusive upper bound). -/
def specSumIco (start stop : Int) : Int := ∑ i in Finset.Ico start stop, i

theorem ico_insert_top (s : Int) (f : Nat) :
    Finset.Ico s (s + (f : Int) + 1) =
      insert (s + (f : Int)) (Finset.Ico s (s + (f : Int))) := by
  ext x
  simp only [Finset.mem_Ico, Finset.mem_insert]
  omega

theorem accLoop_ico (f : Nat) : ∀ s : Int,
    accLoop s f 0 = ∑ i in Finset.Ico s (s + (f : Int)), i := by
  induction f with
  | zero => intro s; simp [accLoop]
  | succ f ih =>
      intro s
      rw [accLoop_succ, ih s]
      have hcast : ((f + 1 : Nat) : Int) = (f : Int) + 1 := by push_cast; ring
      rw [hcast, show s + ((f : Int) + 1) = s + (f : Int) + 1 from by ring,
        ico_insert_top s f, Finset.sum_insert (by simp [Finset.mem_Ico])]
      ring

/-- C2: For every pair of values start and stop, accumulate under the
sequential policy returns the sum of all integers i with start ≤ i < stop
(the upper bound is excluded from the sum). -/
theorem claim_C2_seq_sums_half_open_range (start stop : Int) :
    accumulate_seq start stop = specSumIco start stop := by
  unfold accumulate_seq specSumIco
  rw [accLoop_ico]
  congr 1
  ext x
  simp only [Finset.mem_Ico]
  omega

/-- C3: For every pair of bounds, accumulate under the parallel-reduction
policy (each thread accumulating a private sum over its assigned chunk of
iterations, the private sums combined at the end) returns the same value as
accumulate under the sequential policy on the same bounds. -/
theorem claim_C3_reduce_refines_seq (start stop : Int)
    (chunks : List (List Int))
    (h : chunks.flatten.Perm (rangeList start stop)) :
    accumulate_par_reduce chunks = accumulate_seq start stop :=
  reduce_eq_seq start stop chunks h

theorem claim_C3_witness :
    accumulate_par_reduce [[5, 6], [7, 8]] = accumulate_seq 5 9 :=
  claim_C3_reduce_refines_seq 5 9 [[5, 6], [7, 8]] (by decide)

/-- C4: every result that the unsynchronized-parallel policy can produce
when accumulating [0, n) is at most the closed-form sum n(n-1)/2, and
equality is not required to hold: some complete execution returns a
different (strictly smaller) value. -/
theorem claim_C4_race_result_bounded :
    (∀ (n : Int) (evs : List RaceEv) (r : Int),
      raceResult 0 n evs = some r → r ≤ n * (n - 1) / 2) ∧
    (∃ (n : Int) (evs : List RaceEv) (r : Int),
      raceResult 0 n evs = some r ∧ r ≠ n * (n - 1) / 2) := by
  constructor
  · exact raceResult_le
  · exact ⟨3, [RaceEv.read 0, RaceEv.read 1, RaceEv.write 1, RaceEv.read 2,
      RaceEv.write 2, RaceEv.write 0], 0, by decide, by decide⟩

theorem claim_C4_witness :
    raceResult 0 3 [RaceEv.read 0, RaceEv.read 1, RaceEv.write 1,
      RaceEv.read 2, RaceEv.write 2, RaceEv.write 0] = some 0 ∧
    (0 : Int) ≤ 3 * (3 - 1) / 2 :=
  ⟨by decide, claim_C4_race_result_bounded.1 3 [RaceEv.read 0, RaceEv.read 1,
    RaceEv.write 1, RaceEv.read 2, RaceEv.write 2, RaceEv.write 0] 0
    (by decide)⟩

/-- C5: for fixed bounds, every correct policy is deterministic: any two
invocations (any two schedules for the parallel policies) return the same
sum, with no hidden state between calls. -/
theorem claim_C5_correct_policies_deterministic (s e : Int) :
    accumulate_seq s e = accumulate_seq s e ∧
    (∀ o1 o2 : List Int, o1.Perm (rangeList s e) → o2.Perm (rangeList s e) →
      accumulate_atomic o1 = accumulate_atomic o2) ∧
    (∀ o1 o2 : List Int, o1.Perm (rangeList s e) → o2.Perm (rangeList s e) →
      accumulate_critical o1 = accumulate_critical o2) ∧
    (∀ c1 c2 : List (List Int), c1.flatten.Perm (rangeList s e) →
      c2.flatten.Perm (rangeList s e) →
      accumulate_par_reduce c1 = accumulate_par_reduce c2) := by
  refine ⟨rfl, ?_, ?_, ?_⟩
  · intro o1 o2 h1 h2
    rw [atomic_eq_seq s e o1 h1, atomic_eq_seq s e o2 h2]
  · intro o1 o2 h1 h2
    rw [critical_eq_seq s e o1 h1, critical_eq_seq s e o2 h2]
  · intro c1 c2 h1 h2
    rw [reduce_eq_seq s e c1 h1, reduce_eq_seq s e c2 h2]

theorem claim_C5_witness :
    accumulate_atomic [2, 0, 1] = accumulate_atomic [1, 0, 2] ∧
    accumulate_critical [0, 2, 1] = accumulate_critical [2, 1, 0] ∧
    accumulate_par_reduce [[0, 1], [2]] = accumulate_par_reduce [[0], [1, 2]] :=
  ⟨(claim_C5_correct_policies_deterministic 0 3).2.1 [2, 0, 1] [1, 0, 2]
      (by decide) (by decide),
   (claim_C5_correct_policies_deterministic 0 3).2.2.1 [0, 2, 1] [2, 1, 0]
      (by decide) (by decide),
   (claim_C5_correct_policies_deterministic 0 3).2.2.2 [[0, 1], [2]]
      [[0], [1, 2]] (by decide) (by decide)⟩

/-- C6: Running the program (no arguments) executes the five strategies in
the fixed order serial, unsynchronized-parallel, atomic, critical,
reduction; per strategy it prints the elapsed milliseconds and the computed
sum; for each of the four parallel strategies it prints a speedup ratio
equal to the serial elapsed time divided by that strategy's elapsed time;
and it returns exit code 0. -/
theorem claim_C6_main_order_and_output
    (tSerial tPar tAtomic tCritical tReduce : Nat) (parResult : Int)
    (aOrder cOrder : List Int) (rChunks : List (List Int)) :
    ((mainRun tSerial tPar tAtomic tCritical tReduce parResult aOrder cOrder
        rChunks).reports.map StrategyReport.strategy =
      [Strategy.serial, Strategy.openmp, Strategy.openmpAtomic,
        Strategy.openmpCritical, Strategy.openmpReduce]) ∧
    ((mainRun tSerial tPar tAtomic tCritical tReduce parResult aOrder cOrder
        rChunks).reports.map StrategyReport.elapsedMs =
      [tSerial, tPar, tAtomic, tCritical, tReduce]) ∧
    ((mainRun tSerial tPar tAtomic tCritical tReduce parResult aOrder cOrder
        rChunks).reports.map StrategyReport.speedup =
      [none, some (accRatio tSerial tPar), some (accRatio tSerial tAtomic),
        some (accRatio tSerial tCritical), some (accRatio tSerial tReduce)]) ∧
    (mainRun tSerial tPar tAtomic tCritical tReduce parResult aOrder cOrder
        rChunks).exitCode = 0 ∧
    (∀ t : Nat, t ≠ 0 →
      accRatio tSerial t = DoubleVal.finite ((tSerial : Rat) / (t : Rat))) := by
  refine ⟨rfl, rfl, rfl, rfl, ?_⟩
  intro t ht
  simp [accRatio, ht]

theorem claim_C6_witness :
    (mainRun 5 1 1 1 1 7 [] [] []).exitCode = 0 ∧
    accRatio 5 2 = DoubleVal.finite ((5 : Rat) / (2 : Rat)) :=
  ⟨(claim_C6_main_order_and_output 5 1 1 1 1 7 [] [] []).2.2.2.1,
   (claim_C6_main_order_and_output 5 1 1 1 1 7 [] [] []).2.2.2.2 2
     (by norm_num)⟩

/-- C7: For start = 5 and stop = 5 (an empty range), accumulate returns 0
under every one of the five policies. -/
theorem claim_C7_empty_range_zero :
    accumulate_seq 5 5 = 0 ∧
    (∀ o : List Int, o.Perm (rangeList 5 5) → accumulate_atomic o = 0) ∧
    (∀ o : List Int, o.Perm (rangeList 5 5) → accumulate_critical o = 0) ∧
    (∀ c : List (List Int), c.flatten.Perm (rangeList 5 5) →
      accumulate_par_reduce c = 0) ∧
    (∀ (evs : List RaceEv) (r : Int), raceResult 5 5 evs = some r → r = 0) := by
  have hseq : accumulate_seq 5 5 = 0 := by decide
  refine ⟨hseq, ?_, ?_, ?_, ?_⟩
  · intro o ho; rw [atomic_eq_seq 5 5 o ho, hseq]
  · intro o ho; rw [critical_eq_seq 5 5 o ho, hseq]
  · intro c hc; rw [reduce_eq_seq 5 5 c hc, hseq]
  · intro evs r h
    unfold raceResult at h
    cases hrun : raceRun evs (raceInit 5 5) with
    | none => rw [hrun, Option.none_bind] at h; exact absurd h (by simp)
    | some st =>
        rw [hrun, Option.some_bind] at h
        have hst := raceRun_stuck evs (raceInit 5 5) st (by decide) rfl hrun
        rw [hst, if_pos (⟨by decide, rfl⟩ :
          (raceInit 5 5).toDo = [] ∧ (raceInit 5 5).pending = [])] at h
        exact (Option.some.inj h).symm

theorem claim_C7_witness :
    accumulate_seq 5 5 = 0 ∧ accumulate_atomic [] = 0 ∧
    accumulate_critical [] = 0 ∧ accumulate_par_reduce [] = 0 ∧
    raceResult 5 5 [] = some 0 ∧ (0 : Int) = 0 :=
  ⟨claim_C7_empty_range_zero.1,
   claim_C7_empty_range_zero.2.1 [] (by decide),
   claim_C7_empty_range_zero.2.2.1 [] (by decide),
   claim_C7_empty_range_zero.2.2.2.1 [] (by decide),
   by decide,
   claim_C7_empty_range_zero.2.2.2.2 [] 0 (by decide)⟩

/-- C8: For start = 0 and stop = 10, accumulate returns 45 under the
sequential, atomic, critical, and reduction policies. -/
theorem claim_C8_sum_0_10_is_45 :
    accumulate_seq 0 10 = 45 ∧
    (∀ o : List Int, o.Perm (rangeList 0 10) → accumulate_atomic o = 45) ∧
    (∀ o : List Int, o.Perm (rangeList 0 10) → accumulate_critical o = 45) ∧
    (∀ c : List (List Int), c.flatten.Perm (rangeList 0 10) →
      accumulate_par_reduce c = 45) := by
  have hseq : accumulate_seq 0 10 = 45 := by decide
  refine ⟨hseq, ?_, ?_, ?_⟩
  · intro o ho; rw [atomic_eq_seq 0 10 o ho, hseq]
  · intro o ho; rw [critical_eq_seq 0 10 o ho, hseq]
  · intro c hc; rw [reduce_eq_seq 0 10 c hc, hseq]

theorem claim_C8_witness :
    accumulate_seq 0 10 = 45 ∧
    accumulate_atomic [9, 8, 7, 6, 5, 4, 3, 2, 1, 0] = 45 ∧
    accumulate_critical [5, 6, 7, 8, 9, 0, 1, 2, 3, 4] = 45 ∧
    accumulate_par_reduce [[0, 1, 2, 3, 4], [5, 6, 7, 8, 9]] = 45 :=
  ⟨claim_C8_sum_0_10_is_45.1,
   claim_C8_sum_0_10_is_45.2.1 [9, 8, 7, 6, 5, 4, 3, 2, 1, 0] (by decide),
   claim_C8_sum_0_10_is_45.2.2.1 [5, 6, 7, 8, 9, 0, 1, 2, 3, 4] (by decide),
   claim_C8_sum_0_10_is_45.2.2.2 [[0, 1, 2, 3, 4], [5, 6, 7, 8, 9]]
     (by decide)⟩

/-- C9: In main n is fixed at INT_MAX >> 3 = 268435455 and accumulate is
instantiated at type int, so the mathematical sum n(n-1)/2 exceeds INT_MAX;
under wraparound (mod 2^32) semantics the value computed by the correct
strategies equals n(n-1)/2 reduced modulo 2^32 and reinterpreted as a
signed 32-bit integer, not the mathematical closed-form value. -/
theorem claim_C9_int32_overflow :
    mainN = 268435455 ∧
    2147483647 < mainN * (mainN - 1) / 2 ∧
    accumulate_seq_int32 0 mainN = wrap32 (mainN * (mainN - 1) / 2) ∧
    (∀ o : List Int, o.Perm (rangeList 0 mainN) →
      accumulate_atomic_int32 o = wrap32 (mainN * (mainN - 1) / 2)) ∧
    (∀ o : List Int, o.Perm (rangeList 0 mainN) →
      accumulate_critical_int32 o = wrap32 (mainN * (mainN - 1) / 2)) ∧
    (∀ c : List (List Int), c.flatten.Perm (rangeList 0 mainN) →
      accumulate_par_reduce_int32 c = wrap32 (mainN * (mainN - 1) / 2)) ∧
    wrap32 (mainN * (mainN - 1) / 2) ≠ mainN * (mainN - 1) / 2 := by
  have hN : mainN = 268435455 := by decide
  have hcf : accumulate_seq 0 mainN = mainN * (mainN - 1) / 2 :=
    seq_closed_form mainN (by rw [hN]; norm_num)
  refine ⟨hN, ?_, ?_, ?_, ?_, ?_, ?_⟩
  · rw [hN]; decide
  · rw [seq_int32_eq 0 mainN (by norm_num) (by norm_num)
      (by rw [hN]; norm_num), hcf]
  · intro o ho; rw [atomic_int32_eq 0 mainN o ho, hcf]
  · intro o ho; rw [critical_int32_eq 0 mainN o ho, hcf]
  · intro c hc; rw [reduce_int32_eq 0 mainN c hc, hcf]
  · rw [hN]; decide

theorem claim_C9_witness :
    accumulate_atomic_int32 (rangeList 0 mainN) =
      wrap32 (mainN * (mainN - 1) / 2) ∧
    accumulate_critical_int32 (rangeList 0 mainN) =
      wrap32 (mainN * (mainN - 1) / 2) ∧
    accumulate_par_reduce_int32 [rangeList 0 mainN] =
      wrap32 (mainN * (mainN - 1) / 2) :=
  ⟨claim_C9_int32_overflow.2.2.2.1 (rangeList 0 mainN) (List.Perm.refl _),
   claim_C9_int32_overflow.2.2.2.2.1 (rangeList 0 mainN) (List.Perm.refl _),
   claim_C9_int32_overflow.2.2.2.2.2.1 [rangeList 0 mainN] (by simp)⟩

/-- C10: accRatio divides the serial elapsed time by the target elapsed
time with no guard against a zero divisor: when a parallel strategy
measures 0 ms the printed speedup is not a finite number (+inf for a
positive numerator, NaN for 0/0). -/
theorem claim_C10_zero_divisor_not_finite :
    accRatio 5 0 = DoubleVal.posInf ∧
    DoubleVal.isFinite (accRatio 5 0) = false ∧
    accRatio 0 0 = DoubleVal.nan ∧
    (mainRun 5 0 1 1 1 0 [] [] []).reports.map StrategyReport.speedup =
      [none, some DoubleVal.posInf, some (DoubleVal.finite 5),
        some (DoubleVal.finite 5), some (DoubleVal.finite 5)] := by
  refine ⟨by decide, by decide, by decide, ?_⟩
  norm_num [mainRun, accRatio]
